import Mathlib

/-!
Verification of `resourcetrack` (momentohq/resourcetrack, `src/lib.rs`).

The library is a registry of categories, each backed by a shared
`Arc<AtomicUsize>` counter.  Guards (`tracked::Count`, `tracked::Size`)
mutate the counter with wrapping `fetch_add` / `fetch_sub` and release
their contribution on drop.  We embed:

* `usize` atomics as `Nat` with explicit reduction modulo `2 ^ 64`
  (64-bit target; `fetch_add` / `fetch_sub` wrap);
* the `tracked::Size` guard as a structure carrying the shared counter
  value (`total`) and its private `local` field (spelled `locl`, since
  `local` is a Lean keyword);
* one category as a state machine: the counter plus the list of live
  guards, driven by an operation language mirroring the public API;
* the registry as a store of counter cells plus an insertion-ordered
  association list embedding the `HashMap<Id, Category>`.
-/

namespace Resourcetrack

/-- Number of values of `usize` on a 64-bit target. -/
def USIZE : Nat := 2 ^ 64

/-- Embedding of `AtomicUsize::fetch_add`: wrapping addition modulo `2 ^ 64`. -/
def fetchAdd (c n : Nat) : Nat := (c + n) % USIZE

/-- Embedding of `AtomicUsize::fetch_sub`: wrapping subtraction modulo `2 ^ 64`. -/
def fetchSub (c n : Nat) : Nat := (c + (USIZE - n % USIZE)) % USIZE

lemma usize_pos : 0 < USIZE := by decide

/-- When no overflow occurs, `fetch_add` is plain addition. -/
lemma fetchAdd_eq (c n : Nat) (h : c + n < USIZE) : fetchAdd c n = c + n :=
  Nat.mod_eq_of_lt h

/-- When no underflow occurs, `fetch_sub` is plain (truncated) subtraction. -/
lemma fetchSub_eq (c n : Nat) (h1 : n ≤ c) (h2 : c < USIZE) :
    fetchSub c n = c - n := by
  unfold fetchSub
  have hn : n < USIZE := lt_of_le_of_lt h1 h2
  rw [Nat.mod_eq_of_lt hn]
  have hsplit : c + (USIZE - n) = (c - n) + USIZE := by omega
  rw [hsplit, Nat.add_mod_right]
  exact Nat.mod_eq_of_lt (by omega)

lemma fetchSub_zero (c : Nat) (h : c < USIZE) : fetchSub c 0 = c := by
  unfold fetchSub
  simp only [Nat.zero_mod, Nat.sub_zero, Nat.add_mod_right]
  exact Nat.mod_eq_of_lt h

lemma fetchAdd_lt (c n : Nat) : fetchAdd c n < USIZE :=
  Nat.mod_lt _ usize_pos

lemma fetchSub_lt (c n : Nat) : fetchSub c n < USIZE :=
  Nat.mod_lt _ usize_pos

/-- Embedding of `tracked::Size`: a mutable guard.  `total` is the current value of the
shared `AtomicUsize` the guard points at; `locl` is the guard's own
`local : usize` field. -/
structure Size where
  total : Nat
  locl : Nat
deriving Repr, DecidableEq

/-- Embedding of `Size::set` (`src/lib.rs:313-323`): take the absolute difference with
`local`, subtract it from the shared counter when shrinking, add it when
growing, then store the new size in `local`. -/
def Size.set (s : Size) (new_size : Nat) : Size :=
  let difference := Nat.dist new_size s.locl
  if new_size < s.locl then
    { total := fetchSub s.total difference, locl := new_size }
  else
    { total := fetchAdd s.total difference, locl := new_size }

/-- Embedding of `Size::add` (`src/lib.rs:326-330`): `fetch_add` on the shared counter
and `local += amount` (wrapping, as in release builds). -/
def Size.add (s : Size) (amount : Nat) : Size :=
  { total := fetchAdd s.total amount, locl := (s.locl + amount) % USIZE }

/-- Embedding of `Size::subtract` (`src/lib.rs:333-339`): `fetch_sub` of
`min(amount, local)` on the shared counter and `local.saturating_sub(amount)`
(Nat subtraction is saturating). -/
def Size.subtract (s : Size) (amount : Nat) : Size :=
  { total := fetchSub s.total (min amount s.locl), locl := s.locl - amount }

/-- Embedding of `Drop for Size` (`src/lib.rs:342-347`): `fetch_sub(local)`; the result
is the shared counter's value after the guard is gone. -/
def Size.dropSize (s : Size) : Nat := fetchSub s.total s.locl

example : Size.subtract { total := 4, locl := 4 } 5 = { total := 0, locl := 0 } := by decide
example : Size.set { total := 4, locl := 4 } 5 = { total := 5, locl := 5 } := by decide
example : Size.add { total := 4, locl := 4 } 3 = { total := 7, locl := 7 } := by decide
example : Size.dropSize { total := 7, locl := 7 } = 0 := by decide

/-- A live guard handed out by a category's `Tracker`. -/
inductive Guard
  | count : Guard
  | size (locl : Nat) : Guard
deriving Repr, DecidableEq

/-- The contribution a live guard holds against its category's counter:
`1` for a `Count` guard, the guard's `local` for a `Size` guard. -/
def Guard.weight : Guard → Nat
  | .count => 1
  | .size l => l

/-- One category: the shared counter's current value plus the live guards
derived from it (the guard list is ghost bookkeeping identifying each
outstanding guard and, for size guards, its `local` field). -/
structure CatState where
  counter : Nat
  guards : List Guard
deriving Repr, DecidableEq

/-- Aggregate outstanding weight of a list of live guards. -/
def weightSum (gs : List Guard) : Nat := (gs.map Guard.weight).sum

/-- Operation language for one category.  Guard-targeting operations name
the live guard by its position in the guard list; an operation aimed at a
missing index or at a guard of the wrong kind has no Rust counterpart and
is a no-op. -/
inductive Op
  | track
  | trackSize (initial : Nat)
  | set (i : Nat) (new_size : Nat)
  | add (i : Nat) (amount : Nat)
  | subtract (i : Nat) (amount : Nat)
  | drop (i : Nat)
deriving Repr, DecidableEq

/-- Numeric arguments of an operation are `usize` values. -/
def Op.wfB : Op → Bool
  | .track => true
  | .trackSize n => decide (n < USIZE)
  | .set _ n => decide (n < USIZE)
  | .add _ a => decide (a < USIZE)
  | .subtract _ a => decide (a < USIZE)
  | .drop _ => true

/-- Small-step semantics of the category API, mirroring `src/lib.rs`:
`Tracker::track` is `fetch_add(1)` and mints a `Count` guard;
`Tracker::track_size(initial)` is `fetch_add(initial)` and mints a `Size`
guard with `local = initial`; the `Size` methods run on the shared counter
paired with that guard's `local`; dropping a `Count` guard is
`fetch_sub(1)` and dropping a `Size` guard is `fetch_sub(local)`. -/
def applyOp (s : CatState) : Op → CatState
  | .track =>
      { counter := fetchAdd s.counter 1, guards := s.guards ++ [.count] }
  | .trackSize initial =>
      { counter := fetchAdd s.counter initial, guards := s.guards ++ [.size initial] }
  | .set i n =>
      match s.guards[i]? with
      | some (.size l) =>
          let g2 := Size.set { total := s.counter, locl := l } n
          { counter := g2.total, guards := s.guards.set i (.size g2.locl) }
      | _ => s
  | .add i a =>
      match s.guards[i]? with
      | some (.size l) =>
          let g2 := Size.add { total := s.counter, locl := l } a
          { counter := g2.total, guards := s.guards.set i (.size g2.locl) }
      | _ => s
  | .subtract i a =>
      match s.guards[i]? with
      | some (.size l) =>
          let g2 := Size.subtract { total := s.counter, locl := l } a
          { counter := g2.total, guards := s.guards.set i (.size g2.locl) }
      | _ => s
  | .drop i =>
      match s.guards[i]? with
      | some .count =>
          { counter := fetchSub s.counter 1, guards := s.guards.eraseIdx i }
      | some (.size l) =>
          { counter := fetchSub s.counter l, guards := s.guards.eraseIdx i }
      | none => s

/-- A category starts with its counter at zero and no live guards. -/
def initCat : CatState := { counter := 0, guards := [] }

/-- Run a sequence of guard operations against a fresh category. -/
def runOps (ops : List Op) : CatState := ops.foldl applyOp initCat

/-- Checks that the aggregate outstanding weight stays below `2 ^ 64` at
the starting state and after every operation of the list. -/
def boundedRun (s : CatState) : List Op → Bool
  | [] => decide (weightSum s.guards < USIZE)
  | op :: rest => decide (weightSum s.guards < USIZE) && boundedRun (applyOp s op) rest

example : (runOps [Op.trackSize 4, Op.subtract 0 5]).counter = 0 := by decide
example : (runOps [Op.trackSize 4, Op.add 0 3]).counter = 7 := by decide
example : (runOps [Op.trackSize 4, Op.set 0 5, Op.set 0 1, Op.drop 0]).counter = 0 := by decide
example : (runOps [Op.track, Op.track, Op.drop 0, Op.drop 0]).counter = 0 := by decide

lemma weightSum_nil : weightSum [] = 0 := rfl

lemma weightSum_cons (g : Guard) (gs : List Guard) :
    weightSum (g :: gs) = g.weight + weightSum gs := by
  simp [weightSum]

lemma weightSum_append_single (gs : List Guard) (g : Guard) :
    weightSum (gs ++ [g]) = weightSum gs + g.weight := by
  simp [weightSum]

lemma weight_le_weightSum (gs : List Guard) (i : Nat) (g : Guard)
    (h : gs[i]? = some g) : g.weight ≤ weightSum gs := by
  induction gs generalizing i with
  | nil => simp at h
  | cons a rest ih =>
      cases i with
      | zero =>
          simp at h
          subst h
          rw [weightSum_cons]
          omega
      | succ j =>
          simp at h
          have := ih j h
          rw [weightSum_cons]
          omega

lemma weightSum_set (gs : List Guard) (i : Nat) (g g2 : Guard)
    (h : gs[i]? = some g) :
    weightSum (gs.set i g2) + g.weight = weightSum gs + g2.weight := by
  induction gs generalizing i with
  | nil => simp at h
  | cons a rest ih =>
      cases i with
      | zero =>
          simp at h
          subst h
          simp [List.set, weightSum_cons]
          omega
      | succ j =>
          simp at h
          have := ih j h
          simp [List.set, weightSum_cons]
          omega

lemma weightSum_eraseIdx (gs : List Guard) (i : Nat) (g : Guard)
    (h : gs[i]? = some g) :
    weightSum (gs.eraseIdx i) + g.weight = weightSum gs := by
  induction gs generalizing i with
  | nil => simp at h
  | cons a rest ih =>
      cases i with
      | zero =>
          simp at h
          subst h
          simp [List.eraseIdx, weightSum_cons]
          omega
      | succ j =>
          simp at h
          have := ih j h
          simp [List.eraseIdx, weightSum_cons]
          omega

/-- One step preserves "the counter equals the aggregate outstanding
weight", provided the aggregate fits in `usize` before and after the step
and the operation's arguments are `usize` values. -/
lemma applyOp_preserves (s : CatState) (op : Op)
    (hwf : op.wfB = true)
    (hinv : s.counter = weightSum s.guards)
    (hpre : weightSum s.guards < USIZE)
    (hpost : weightSum (applyOp s op).guards < USIZE) :
    (applyOp s op).counter = weightSum (applyOp s op).guards := by
  cases op with
  | track =>
      simp only [applyOp, weightSum_append_single] at hpost ⊢
      rw [hinv, fetchAdd_eq]
      · rfl
      · simpa [Guard.weight] using hpost
  | trackSize n =>
      simp only [applyOp, weightSum_append_single] at hpost ⊢
      rw [hinv, fetchAdd_eq]
      · rfl
      · simpa [Guard.weight] using hpost
  | set i n =>
      cases hget : s.guards[i]? with
      | none => simpa [applyOp, hget] using hinv
      | some g =>
          cases g with
          | count => simpa [applyOp, hget] using hinv
          | size l =>
              have hle : l ≤ weightSum s.guards := weight_le_weightSum _ _ _ hget
              have hset := weightSum_set s.guards i (Guard.size l) (Guard.size n) hget
              simp only [Guard.weight] at hset
              simp only [applyOp, hget, Size.set] at hpost ⊢
              by_cases hcmp : n < l
              · have hdist : Nat.dist n l = l - n := by
                  unfold Nat.dist
                  omega
                simp only [hcmp, if_pos] at hpost ⊢
                rw [hdist, hinv, fetchSub_eq _ _ (by omega) hpre]
                omega
              · have hdist : Nat.dist n l = n - l := by
                  unfold Nat.dist
                  omega
                simp only [hcmp, if_neg, ite_false] at hpost ⊢
                rw [hdist, hinv, fetchAdd_eq _ _ (by omega)]
                omega
  | add i a =>
      have ha : a < USIZE := by simpa [Op.wfB] using hwf
      cases hget : s.guards[i]? with
      | none => simpa [applyOp, hget] using hinv
      | some g =>
          cases g with
          | count => simpa [applyOp, hget] using hinv
          | size l =>
              have hle : l ≤ weightSum s.guards := weight_le_weightSum _ _ _ hget
              have hset := weightSum_set s.guards i (Guard.size l)
                (Guard.size ((l + a) % USIZE)) hget
              simp only [Guard.weight] at hset
              simp only [applyOp, hget, Size.add] at hpost ⊢
              rcases Nat.lt_or_ge (l + a) USIZE with hla | hla
              · rw [Nat.mod_eq_of_lt hla] at hset hpost ⊢
                rw [hinv, fetchAdd_eq _ _ (by omega)]
                omega
              · have hmod : (l + a) % USIZE = l + a - USIZE := by
                  rw [Nat.mod_eq_sub_mod hla]
                  exact Nat.mod_eq_of_lt (by omega)
                rw [hmod] at hset hpost ⊢
                have hsum : USIZE ≤ weightSum s.guards + a := by omega
                unfold fetchAdd
                rw [hinv, Nat.mod_eq_sub_mod hsum, Nat.mod_eq_of_lt (by omega)]
                omega
  | subtract i a =>
      cases hget : s.guards[i]? with
      | none => simpa [applyOp, hget] using hinv
      | some g =>
          cases g with
          | count => simpa [applyOp, hget] using hinv
          | size l =>
              have hle : l ≤ weightSum s.guards := weight_le_weightSum _ _ _ hget
              have hset := weightSum_set s.guards i (Guard.size l)
                (Guard.size (l - a)) hget
              simp only [Guard.weight] at hset
              simp only [applyOp, hget, Size.subtract] at hpost ⊢
              rw [hinv, fetchSub_eq _ _ (by omega) hpre]
              omega
  | drop i =>
      cases hget : s.guards[i]? with
      | none => simpa [applyOp, hget] using hinv
      | some g =>
          cases g with
          | count =>
              have hle : Guard.weight Guard.count ≤ weightSum s.guards :=
                weight_le_weightSum _ _ _ hget
              simp only [Guard.weight] at hle
              have herase := weightSum_eraseIdx s.guards i Guard.count hget
              simp only [Guard.weight] at herase
              simp only [applyOp, hget] at hpost ⊢
              rw [hinv, fetchSub_eq _ _ (by omega) hpre]
              omega
          | size l =>
              have hle : l ≤ weightSum s.guards := weight_le_weightSum _ _ _ hget
              have herase := weightSum_eraseIdx s.guards i (Guard.size l) hget
              simp only [Guard.weight] at herase
              simp only [applyOp, hget] at hpost ⊢
              rw [hinv, fetchSub_eq _ _ (by omega) hpre]
              omega

lemma boundedRun_head (s : CatState) (ops : List Op)
    (h : boundedRun s ops = true) : weightSum s.guards < USIZE := by
  cases ops with
  | nil => simpa [boundedRun] using h
  | cons op rest =>
      simp [boundedRun] at h
      exact h.1

lemma boundedRun_of_append (s : CatState) (l1 l2 : List Op)
    (h : boundedRun s (l1 ++ l2) = true) : boundedRun s l1 = true := by
  induction l1 generalizing s with
  | nil =>
      simp only [boundedRun, decide_eq_true_eq]
      exact boundedRun_head s l2 (by simpa using h)
  | cons op rest ih =>
      simp only [List.cons_append, boundedRun, Bool.and_eq_true,
        decide_eq_true_eq] at h ⊢
      exact ⟨h.1, ih _ h.2⟩

/-- Any bounded, well-formed run preserves the main invariant: the shared
counter equals the aggregate outstanding weight of the live guards. -/
lemma run_preserves (ops : List Op) (s : CatState)
    (hwf : ops.all Op.wfB = true)
    (hb : boundedRun s ops = true)
    (hinv : s.counter = weightSum s.guards) :
    (ops.foldl applyOp s).counter = weightSum (ops.foldl applyOp s).guards := by
  induction ops generalizing s with
  | nil => exact hinv
  | cons op rest ih =>
      simp only [List.all_cons, Bool.and_eq_true] at hwf
      simp only [boundedRun, Bool.and_eq_true, decide_eq_true_eq] at hb
      have hpost : weightSum (applyOp s op).guards < USIZE :=
        boundedRun_head _ _ hb.2
      exact ih (applyOp s op) hwf.2 hb.2
        (applyOp_preserves s op hwf.1 hinv hb.1 hpost)

/-- Operations the demonstration run for the invariant uses. -/
def demoOps : List Op :=
  [Op.track, Op.trackSize 4, Op.add 1 3, Op.set 1 2, Op.subtract 1 1, Op.drop 1, Op.drop 0]

/-- The literal invariant claim fails once the aggregate outstanding weight
overflows `usize`: two size guards of `2 ^ 64 - 1` and `1` wrap the shared
counter to `0` while their aggregate weight is `2 ^ 64`. -/
theorem counter_eq_weight_cex :
    ¬ (runOps [Op.trackSize (2 ^ 64 - 1), Op.trackSize 1]).counter
        = weightSum (runOps [Op.trackSize (2 ^ 64 - 1), Op.trackSize 1]).guards := by
  decide

/-- C1 (amended): at every point of a sequence of guard operations whose
arguments are `usize` values and whose aggregate outstanding weight stays
below `2 ^ 64` throughout, the category's shared counter equals the sum of
`1` per live `Count` guard plus the current `local` of each live `Size`
guard (so in particular no `fetch_sub` ever wraps the counter below
zero). -/
theorem counter_eq_outstanding_weight (ops : List Op)
    (hwf : ops.all Op.wfB = true)
    (hb : boundedRun initCat ops = true) :
    ∀ n, (runOps (ops.take n)).counter = weightSum (runOps (ops.take n)).guards := by
  intro n
  have hsplit : ops.take n ++ ops.drop n = ops := List.take_append_drop n ops
  have hb1 : boundedRun initCat (ops.take n) = true := by
    apply boundedRun_of_append initCat (ops.take n) (ops.drop n)
    rw [hsplit]
    exact hb
  have hwf1 : (ops.take n).all Op.wfB = true := by
    have : (ops.take n ++ ops.drop n).all Op.wfB = true := by rw [hsplit]; exact hwf
    simp only [List.all_append, Bool.and_eq_true] at this
    exact this.1
  exact run_preserves (ops.take n) initCat hwf1 hb1 rfl

/-- Closed instance of the invariant theorem on a concrete run mixing both
guard kinds. -/
theorem counter_eq_outstanding_weight_witness :
    (demoOps.all Op.wfB = true) ∧ (boundedRun initCat demoOps = true) ∧
      (runOps (demoOps.take 5)).counter = weightSum (runOps (demoOps.take 5)).guards :=
  ⟨by decide, by decide,
    counter_eq_outstanding_weight demoOps (by decide) (by decide) 5⟩

/-- Operations available when a category is used only through `track()`
and `Count` guard drops. -/
def Op.isCountOpB : Op → Bool
  | .track => true
  | .drop _ => true
  | _ => false

lemma all_eraseIdx (p : Guard → Bool) (gs : List Guard) (i : Nat)
    (h : gs.all p = true) : (gs.eraseIdx i).all p = true := by
  induction gs generalizing i with
  | nil => simp [List.eraseIdx]
  | cons a rest ih =>
      simp only [List.all_cons, Bool.and_eq_true] at h
      cases i with
      | zero => simpa [List.eraseIdx] using h.2
      | succ j =>
          simp only [List.eraseIdx, List.all_cons, Bool.and_eq_true]
          exact ⟨h.1, ih j h.2⟩

/-- A count-only run keeps the counter equal to the number of live guards. -/
lemma count_run (ops : List Op) (s : CatState)
    (hco : ops.all Op.isCountOpB = true)
    (hall : s.guards.all (fun g => decide (g = Guard.count)) = true)
    (hinv : s.counter = s.guards.length)
    (hbound : s.guards.length + ops.length < USIZE) :
    (ops.foldl applyOp s).counter = (ops.foldl applyOp s).guards.length ∧
      (ops.foldl applyOp s).guards.all (fun g => decide (g = Guard.count)) = true := by
  induction ops generalizing s with
  | nil => exact ⟨hinv, hall⟩
  | cons op rest ih =>
      simp only [List.all_cons, Bool.and_eq_true] at hco
      simp only [List.length_cons] at hbound
      cases op with
      | track =>
          simp only [List.foldl_cons]
          apply ih
          · exact hco.2
          · simpa [applyOp, List.all_append] using hall
          · simp only [applyOp, List.length_append, List.length_cons,
              List.length_nil]
            rw [hinv, fetchAdd_eq _ _ (by omega)]
          · simp only [applyOp, List.length_append, List.length_cons,
              List.length_nil]
            omega
      | trackSize n => simp [Op.isCountOpB] at hco
      | set i n => simp [Op.isCountOpB] at hco
      | add i a => simp [Op.isCountOpB] at hco
      | subtract i a => simp [Op.isCountOpB] at hco
      | drop i =>
          simp only [List.foldl_cons]
          cases hget : s.guards[i]? with
          | none =>
              simp only [applyOp, hget]
              exact ih s hco.2 hall hinv (by omega)
          | some g =>
              have hmem : g ∈ s.guards := List.getElem?_mem hget
              have hgc : g = Guard.count := by
                have := List.all_eq_true.mp hall g hmem
                simpa using this
              subst hgc
              have hi : i < s.guards.length := by
                by_contra hni
                rw [List.getElem?_eq_none (by omega)] at hget
                cases hget
              have hlen : (s.guards.eraseIdx i).length = s.guards.length - 1 :=
                List.length_eraseIdx_of_lt hi
              simp only [applyOp, hget]
              apply ih
              · exact hco.2
              · exact all_eraseIdx _ _ _ hall
              · simp only [hlen]
                rw [hinv, fetchSub_eq _ _ (by omega) (by omega)]
              · simp only [hlen]
                omega

/-- C2: in any sequence of `track()` calls and `Count` guard drops (of
physically realizable length), the counter at every intermediate point
equals the number of currently-live `Count` guards — each `track` adds
exactly one and each drop removes exactly the dropped guard's unit — and
once all guards have been dropped the total is zero. -/
theorem track_drop_counts (ops : List Op)
    (hco : ops.all Op.isCountOpB = true)
    (hlen : ops.length < USIZE) :
    (∀ n, (runOps (ops.take n)).counter = (runOps (ops.take n)).guards.length) ∧
      ((runOps ops).guards = [] → (runOps ops).counter = 0) := by
  have hpref : ∀ n, (runOps (ops.take n)).counter = (runOps (ops.take n)).guards.length := by
    intro n
    have hsplit : ops.take n ++ ops.drop n = ops := List.take_append_drop n ops
    have hco1 : (ops.take n).all Op.isCountOpB = true := by
      have : (ops.take n ++ ops.drop n).all Op.isCountOpB = true := by
        rw [hsplit]; exact hco
      simp only [List.all_append, Bool.and_eq_true] at this
      exact this.1
    have hlen1 : (ops.take n).length ≤ ops.length := by
      simp [List.length_take_le]
    have hbound1 : (initCat.guards).length + (ops.take n).length < USIZE := by
      simp only [initCat, List.length_nil, Nat.zero_add]
      omega
    exact (count_run (ops.take n) initCat hco1 rfl rfl hbound1).1
  refine ⟨hpref, fun hempty => ?_⟩
  have := hpref ops.length
  rw [List.take_length] at this
  rw [this, hempty]
  rfl

/-- Closed instance: two tracks and two drops, checked at the intermediate
point with one live guard and at the empty end state. -/
theorem track_drop_counts_witness :
    ([Op.track, Op.track, Op.drop 0, Op.drop 0].all Op.isCountOpB = true) ∧
      (runOps ([Op.track, Op.track, Op.drop 0, Op.drop 0].take 3)).counter
        = (runOps ([Op.track, Op.track, Op.drop 0, Op.drop 0].take 3)).guards.length ∧
      (runOps [Op.track, Op.track, Op.drop 0, Op.drop 0]).counter = 0 :=
  ⟨by decide,
    (track_drop_counts [Op.track, Op.track, Op.drop 0, Op.drop 0]
      (by decide) (by decide)).1 3,
    (track_drop_counts [Op.track, Op.track, Op.drop 0, Op.drop 0]
      (by decide) (by decide)).2 (by decide)⟩

/-- C3: `subtract(amount)` removes `min(amount, local)` from the shared
counter (a true subtraction, no wraparound, whenever the guard's `local`
is within the counter) and saturates `local` at zero; once `local` is
zeroed, dropping the guard changes the counter by nothing further.
Concretely, `track_size(4)` then `subtract(5)` yields total `0`, and the
total is still `0` after the drop. -/
theorem subtract_saturates (g : Size) (a : Nat)
    (h1 : g.locl ≤ g.total) (h2 : g.total < USIZE) :
    (g.subtract a).total = g.total - min a g.locl ∧
      (g.subtract a).locl = g.locl - a ∧
      (g.locl ≤ a →
        (g.subtract a).locl = 0 ∧
          (g.subtract a).dropSize = (g.subtract a).total) ∧
      (runOps [Op.trackSize 4, Op.subtract 0 5]).counter = 0 ∧
      (runOps [Op.trackSize 4, Op.subtract 0 5, Op.drop 0]).counter = 0 := by
  have htot : (g.subtract a).total = g.total - min a g.locl := by
    simp only [Size.subtract]
    exact fetchSub_eq _ _ (by omega) h2
  refine ⟨htot, rfl, fun hla => ⟨by simp [Size.subtract]; omega, ?_⟩, by decide, by decide⟩
  have hz : (g.subtract a).locl = 0 := by simp [Size.subtract]; omega
  simp only [Size.dropSize, hz]
  exact fetchSub_zero _ (by rw [htot]; omega)

/-- Closed instance of the saturating-subtract theorem at the guard state
produced by `track_size(4)`, subtracting `5`. -/
theorem subtract_saturates_witness :
    (Size.subtract { total := 4, locl := 4 } 5).total = 4 - min 5 4 ∧
      (Size.subtract { total := 4, locl := 4 } 5).locl = 0 ∧
      (Size.subtract { total := 4, locl := 4 } 5).dropSize
        = (Size.subtract { total := 4, locl := 4 } 5).total := by
  have h := subtract_saturates { total := 4, locl := 4 } 5 (by decide) (by decide)
  exact ⟨h.1, (h.2.2.1 (by decide)).1, (h.2.2.1 (by decide)).2⟩

/-- C4: `set(new_size)` moves the shared counter by the absolute
difference with the guard's `local` — subtracting when shrinking, adding
when growing — so the guard's contribution becomes exactly `new_size`;
concretely, after `track_size(4)`, `set(5)` yields total `5`, `set(1)`
yields total `1`, and the drop brings the total to `0`. -/
theorem set_moves_by_abs_diff (g : Size) (n : Nat)
    (h1 : g.locl ≤ g.total) (h2 : g.total < USIZE)
    (h3 : g.total - g.locl + n < USIZE) :
    (g.set n).locl = n ∧
      (n < g.locl → (g.set n).total = g.total - (g.locl - n)) ∧
      (g.locl ≤ n → (g.set n).total = g.total + (n - g.locl)) ∧
      (g.set n).total = g.total - g.locl + n ∧
      (runOps [Op.trackSize 4, Op.set 0 5]).counter = 5 ∧
      (runOps [Op.trackSize 4, Op.set 0 5, Op.set 0 1]).counter = 1 ∧
      (runOps [Op.trackSize 4, Op.set 0 5, Op.set 0 1, Op.drop 0]).counter = 0 := by
  have hmain : (g.set n).total = g.total - g.locl + n := by
    by_cases hcmp : n < g.locl
    · have hdist : Nat.dist n g.locl = g.locl - n := by unfold Nat.dist; omega
      simp only [Size.set, hcmp, if_true, ite_true, hdist]
      rw [fetchSub_eq _ _ (by omega) h2]
      omega
    · have hdist : Nat.dist n g.locl = n - g.locl := by unfold Nat.dist; omega
      simp only [Size.set, hcmp, if_false, ite_false, hdist]
      rw [fetchAdd_eq _ _ (by omega)]
      omega
  have hlocl : (g.set n).locl = n := by
    by_cases hcmp : n < g.locl <;> simp [Size.set, hcmp]
  exact ⟨hlocl, fun h => by rw [hmain]; omega, fun h => by rw [hmain]; omega,
    hmain, by decide, by decide, by decide⟩

/-- Closed instance of the `set` theorem at `track_size(4)` followed by
`set(1)` (a shrink) — the counter moves from `4` to `1`. -/
theorem set_moves_by_abs_diff_witness :
    (Size.set { total := 4, locl := 4 } 1).locl = 1 ∧
      (Size.set { total := 4, locl := 4 } 1).total = 4 - (4 - 1) := by
  have h := set_moves_by_abs_diff { total := 4, locl := 4 } 1
    (by decide) (by decide) (by decide)
  exact ⟨h.1, h.2.1 (by decide)⟩

/-- C7: `track_size(initial)` adds exactly `initial` to the shared counter
and mints a `Size` guard whose `local` is `initial`; `add(amount)` adds
`amount` to both the shared counter and the guard's `local`.  Concretely,
`track_size(4)` then `add(3)` yields total `7`, and the drop returns the
total to `0`. -/
theorem track_size_then_add (s : CatState) (initial : Nat) (g : Size) (a : Nat)
    (h1 : s.counter + initial < USIZE)
    (h2 : g.total + a < USIZE) (h3 : g.locl + a < USIZE) :
    (applyOp s (Op.trackSize initial)).counter = s.counter + initial ∧
      (applyOp s (Op.trackSize initial)).guards = s.guards ++ [Guard.size initial] ∧
      (g.add a).total = g.total + a ∧
      (g.add a).locl = g.locl + a ∧
      (runOps [Op.trackSize 4, Op.add 0 3]).counter = 7 ∧
      (runOps [Op.trackSize 4, Op.add 0 3, Op.drop 0]).counter = 0 := by
  refine ⟨?_, rfl, ?_, ?_, by decide, by decide⟩
  · simp only [applyOp]
    exact fetchAdd_eq _ _ h1
  · simp only [Size.add]
    exact fetchAdd_eq _ _ h2
  · simp only [Size.add]
    exact Nat.mod_eq_of_lt h3

/-- Closed instance of the `track_size` / `add` theorem on the spec's
`track_size(4)` then `add(3)` scenario. -/
theorem track_size_then_add_witness :
    (applyOp initCat (Op.trackSize 4)).counter = 0 + 4 ∧
      (applyOp initCat (Op.trackSize 4)).guards = [Guard.size 4] ∧
      (Size.add { total := 4, locl := 4 } 3).total = 7 ∧
      (Size.add { total := 4, locl := 4 } 3).locl = 7 := by
  have h := track_size_then_add initCat 4 { total := 4, locl := 4 } 3
    (by decide) (by decide) (by decide)
  exact ⟨h.1, by simpa using h.2.1, h.2.2.1, h.2.2.2.1⟩

/-- C10: `set` is a no-op at its fixed point — `set(local)` leaves both
the shared counter and `local` unchanged — and is idempotent: `set(n)`
twice leaves the guard exactly as `set(n)` once. -/
theorem set_idempotent (g : Size) (n : Nat) (h : g.total < USIZE) :
    g.set g.locl = g ∧ (g.set n).set n = g.set n := by
  constructor
  · cases g with
    | mk t l =>
        have ht : t < USIZE := h
        have hf : fetchAdd t 0 = t := by rw [fetchAdd_eq t 0 (by omega)]; omega
        simp [Size.set, Nat.dist_self, hf]
  · have hlocl : (g.set n).locl = n := by
      by_cases hcmp : n < g.locl <;> simp [Size.set, hcmp]
    have hlt : (g.set n).total < USIZE := by
      by_cases hcmp : n < g.locl <;> simp [Size.set, hcmp, fetchSub_lt, fetchAdd_lt]
    cases hg2 : g.set n with
    | mk t2 l2 =>
        have hl2 : l2 = n := by
          have := hlocl
          rw [hg2] at this
          exact this
        have ht2 : t2 < USIZE := by
          have := hlt
          rw [hg2] at this
          exact this
        subst hl2
        have hf : fetchAdd t2 0 = t2 := by rw [fetchAdd_eq t2 0 (by omega)]; omega
        simp [Size.set, Nat.dist_self, hf]

/-- Closed instance of the `set` idempotence theorem at the guard produced
by `track_size(4)`, setting size `9`. -/
theorem set_idempotent_witness :
    Size.set { total := 4, locl := 4 } 4 = { total := 4, locl := 4 } ∧
      (Size.set (Size.set { total := 4, locl := 4 } 9) 9)
        = Size.set { total := 4, locl := 4 } 9 :=
  set_idempotent { total := 4, locl := 4 } 9 (by decide)

/-- The registry heap.  `counters` is the store of `Arc<AtomicUsize>`
cells in allocation order (a cell's index plays the role of the shared
pointer held by the `Category`, the `Tracker` and the guards); `categories`
is the `HashMap<Id, Category>` as an insertion-ordered association list
from identifier to the index of its counter cell. -/
structure RegState (Id : Type) where
  counters : List Nat
  categories : List (Id × Nat)
deriving DecidableEq

/-- Embedding of `new_registry` (`src/lib.rs:152-159`): an empty category map and no
counter cells. -/
def new_registry (Id : Type) : RegState Id :=
  { counters := [], categories := [] }

variable {Id : Type}

/-- Embedding of `HashMap::get` on the embedded map: lookup keyed by the Id type's
logical equality. -/
def catLookup [DecidableEq Id] : List (Id × Nat) → Id → Option Nat
  | [], _ => none
  | (k, v) :: rest, id => if k = id then some v else catLookup rest id

/-- Embedding of `Registry::category` (`src/lib.rs:168-188`): under the lock, look the
identifier up; clone the existing counter cell reference if present,
otherwise allocate a fresh cell holding `0`, insert it, and hand back a
`Tracker` (here: the cell index) over it. -/
def category [DecidableEq Id] (r : RegState Id) (id : Id) : RegState Id × Nat :=
  match catLookup r.categories id with
  | some ix => (r, ix)
  | none =>
      let ix := r.counters.length
      ({ counters := r.counters ++ [0],
         categories := r.categories ++ [(id, ix)] }, ix)

/-- Embedding of `Registry::read_counts` (`src/lib.rs:195-204`): under the lock, pair
every known identifier with its counter cell's current value.  It takes
the registry by shared reference and performs only loads. -/
def read_counts (r : RegState Id) : List (Id × Nat) :=
  r.categories.map (fun p => (p.1, r.counters.getD p.2 0))

/-- Registry-level operations: `category()` calls, the atomic counter
mutations any live guard or tracker can perform on a counter cell, and
`read_counts()` snapshots. -/
inductive RegOp (Id : Type)
  | category (id : Id)
  | guardAdd (ix : Nat) (n : Nat)
  | guardSub (ix : Nat) (n : Nat)
  | readCounts
deriving DecidableEq

/-- Effect of a registry-level operation on the registry state.
`category` may insert; guard operations touch one counter cell;
`read_counts` only reads. -/
def applyRegOp [DecidableEq Id] (r : RegState Id) : RegOp Id → RegState Id
  | .category id => (category r id).1
  | .guardAdd ix n =>
      { r with counters := r.counters.set ix (fetchAdd (r.counters.getD ix 0) n) }
  | .guardSub ix n =>
      { r with counters := r.counters.set ix (fetchSub (r.counters.getD ix 0) n) }
  | .readCounts => r

/-- Identifiers passed to `category()` in a registry-level run. -/
def categoryIds : List (RegOp Id) → List Id :=
  List.filterMap fun op =>
    match op with
    | .category id => some id
    | _ => none

example : (category (new_registry Nat) 7).1.categories = [(7, 0)] := by decide
example : read_counts (applyRegOp (category (new_registry Nat) 7).1
    (RegOp.guardAdd 0 3)) = [(7, 3)] := by decide

lemma catLookup_none_iff [DecidableEq Id] (cats : List (Id × Nat)) (id : Id) :
    catLookup cats id = none ↔ id ∉ cats.map Prod.fst := by
  induction cats with
  | nil => simp [catLookup]
  | cons p rest ih =>
      cases p with
      | mk k v =>
          by_cases hk : k = id
          · subst hk
            simp [catLookup]
          · have hk2 : ¬ id = k := fun h => hk h.symm
            simp [catLookup, hk, hk2, ih]

lemma catLookup_append_of_none [DecidableEq Id] (cats rest : List (Id × Nat))
    (id : Id) (h : catLookup cats id = none) :
    catLookup (cats ++ rest) id = catLookup rest id := by
  induction cats with
  | nil => simp
  | cons p tail ih =>
      cases p with
      | mk k v =>
          by_cases hk : k = id
          · simp [catLookup, hk] at h
          · rw [List.cons_append]
            simp only [catLookup, hk, ite_false] at h ⊢
            exact ih h

lemma getD_append_length (l : List Nat) (x d : Nat) :
    (l ++ [x]).getD l.length d = x := by
  induction l with
  | nil => rfl
  | cons a rest ih => simp only [List.cons_append, List.length_cons, List.getD_cons_succ]; exact ih

lemma catLookup_mem_of_some [DecidableEq Id] (cats : List (Id × Nat))
    (id : Id) (ix : Nat) (h : catLookup cats id = some ix) :
    id ∈ cats.map Prod.fst := by
  by_contra h2
  rw [(catLookup_none_iff cats id).mpr h2] at h
  cases h

/-- C5: `category(id)` inserts a zero-initialized counter when the
identifier is unknown, returns a tracker over the existing counter without
touching anything when it is known, and calling it again with an equal
identifier resolves to the very same counter cell. -/
theorem category_insert_or_share [DecidableEq Id] (r : RegState Id) (id : Id) :
    (catLookup r.categories id = none →
        (category r id).1.categories = r.categories ++ [(id, r.counters.length)] ∧
          (category r id).1.counters = r.counters ++ [0] ∧
          (category r id).2 = r.counters.length ∧
          (category r id).1.counters.getD (category r id).2 0 = 0) ∧
      (∀ ix, catLookup r.categories id = some ix → category r id = (r, ix)) ∧
      category (category r id).1 id = ((category r id).1, (category r id).2) := by
  refine ⟨fun hnone => ?_, fun ix hsome => ?_, ?_⟩
  · simp [category, hnone, getD_append_length]
  · simp [category, hsome]
  · cases hc : catLookup r.categories id with
    | some ix => simp [category, hc]
    | none =>
        have h2 : catLookup (r.categories ++ [(id, r.counters.length)]) id
            = some r.counters.length := by
          rw [catLookup_append_of_none _ _ _ hc]
          simp [catLookup]
        simp [category, hc, h2]

/-- Closed instance: registering identifier `7` in a fresh registry
creates a zero counter, and re-registering `7` shares the same cell. -/
theorem category_insert_or_share_witness :
    (category (new_registry Nat) 7).1.categories = [(7, 0)] ∧
      (category (new_registry Nat) 7).1.counters = [0] ∧
      (category (new_registry Nat) 7).2 = 0 ∧
      category (category (new_registry Nat) 7).1 7
        = ((category (new_registry Nat) 7).1, 0) := by
  have h := category_insert_or_share (new_registry Nat) 7
  have h1 := h.1 (by decide)
  exact ⟨h1.1, h1.2.1, h1.2.2.1, h.2.2⟩

lemma mem_fst_category [DecidableEq Id] (r : RegState Id) (id id2 : Id) :
    id ∈ (category r id2).1.categories.map Prod.fst ↔
      id ∈ r.categories.map Prod.fst ∨ id = id2 := by
  cases hc : catLookup r.categories id2 with
  | some ix =>
      simp only [category, hc]
      constructor
      · exact Or.inl
      · rintro (h | h)
        · exact h
        · subst h
          exact catLookup_mem_of_some _ _ _ hc
  | none =>
      simp [category, hc]

lemma mem_fst_run [DecidableEq Id] (ops : List (RegOp Id)) (r : RegState Id)
    (id : Id) :
    id ∈ (ops.foldl applyRegOp r).categories.map Prod.fst ↔
      id ∈ r.categories.map Prod.fst ∨ id ∈ categoryIds ops := by
  induction ops generalizing r with
  | nil => simp [categoryIds]
  | cons op rest ih =>
      cases op with
      | category id2 =>
          simp only [List.foldl_cons, applyRegOp]
          rw [ih, mem_fst_category]
          simp only [categoryIds, List.filterMap_cons, List.mem_cons]
          tauto
      | guardAdd ix n =>
          simp only [List.foldl_cons, applyRegOp]
          rw [ih]
          simp [categoryIds]
      | guardSub ix n =>
          simp only [List.foldl_cons, applyRegOp]
          rw [ih]
          simp [categoryIds]
      | readCounts =>
          simp only [List.foldl_cons, applyRegOp]
          rw [ih]
          simp [categoryIds]

/-- C6: after any registry-level run starting from a fresh registry,
`read_counts()` contains a pair for an identifier exactly when that
identifier was passed to `category()` at some point of the run — every
referenced category appears (even at total zero) and no unreferenced
identifier does. -/
theorem read_counts_exactly_referenced [DecidableEq Id]
    (ops : List (RegOp Id)) (id : Id) :
    (∃ total, (id, total) ∈ read_counts (ops.foldl applyRegOp (new_registry Id))) ↔
      id ∈ categoryIds ops := by
  have hrc : ∀ total, (id, total) ∈ read_counts (ops.foldl applyRegOp (new_registry Id)) ↔
      ∃ p ∈ (ops.foldl applyRegOp (new_registry Id)).categories,
        p.1 = id ∧ (ops.foldl applyRegOp (new_registry Id)).counters.getD p.2 0 = total := by
    intro total
    simp only [read_counts, List.mem_map, Prod.mk.injEq]
  constructor
  · rintro ⟨total, htot⟩
    rw [hrc] at htot
    obtain ⟨p, hp, h1, h2⟩ := htot
    have hmem : id ∈ (ops.foldl applyRegOp (new_registry Id)).categories.map Prod.fst := by
      rw [List.mem_map]
      exact ⟨p, hp, h1⟩
    have h3 := (mem_fst_run ops (new_registry Id) id).mp hmem
    simpa [new_registry] using h3
  · intro hin
    have hmem : id ∈ (ops.foldl applyRegOp (new_registry Id)).categories.map Prod.fst :=
      (mem_fst_run ops (new_registry Id) id).mpr (Or.inr hin)
    rw [List.mem_map] at hmem
    obtain ⟨p, hp, h1⟩ := hmem
    refine ⟨(ops.foldl applyRegOp (new_registry Id)).counters.getD p.2 0, ?_⟩
    rw [hrc]
    exact ⟨p, hp, h1, rfl⟩

/-- C8: `read_counts()` mutates nothing — the registry state after a
snapshot is the very state before it, so two successive snapshots agree —
and of all registry-level operations only `category(id)` can change the
category map. -/
theorem read_counts_frame [DecidableEq Id] (r : RegState Id) :
    applyRegOp r RegOp.readCounts = r ∧
      read_counts (applyRegOp r RegOp.readCounts) = read_counts r ∧
      (∀ op : RegOp Id, (∀ id2, op ≠ RegOp.category id2) →
        (applyRegOp r op).categories = r.categories) := by
  refine ⟨rfl, rfl, fun op hop => ?_⟩
  cases op with
  | category id2 => exact absurd rfl (hop id2)
  | guardAdd ix n => rfl
  | guardSub ix n => rfl
  | readCounts => rfl

/-- Closed instance: a guard operation on the registry holding category
`3` leaves the category map untouched. -/
theorem read_counts_frame_witness :
    (applyRegOp (category (new_registry Nat) 3).1 (RegOp.guardAdd 0 5)).categories
      = (category (new_registry Nat) 3).1.categories :=
  (read_counts_frame (category (new_registry Nat) 3).1).2.2 (RegOp.guardAdd 0 5)
    (fun _ h => RegOp.noConfusion h)

/-- C9: a freshly constructed registry is empty for every identifier
type: `read_counts()` returns the empty collection and no counter cell
exists yet. -/
theorem new_registry_is_empty :
    ∀ IdT : Type, read_counts (new_registry IdT) = [] ∧ (new_registry IdT).counters = [] :=
  fun _ => ⟨rfl, rfl⟩

end Resourcetrack
